import Mathlib

/-!
Shallow embedding of `pyriemann/estimation.py`: covariance-matrix
estimation transforms (`Covariances`, `ERPCovariances`, `XdawnCovariances`,
`CospCovariances`) over multichannel trials.

Modelling conventions:
* scalars are rationals (`ℚ`); a trial / matrix is a list of rows
  (`List (List ℚ)`), mirroring a 2-D numpy array of shape
  (channels, samples);
* a trial batch is a `List Mat`, labels are a `List ℤ`;
* the external numerical primitives that live outside this file's source
  (the covariance-estimator registry, `numpy.linalg.svd`'s left factor,
  the `cospectrum` primitive, and the `Xdawn` spatial filter) are taken as
  explicit function parameters, or modelled from their documented
  contracts where noted.
-/

/-- A 2-D numeric array: list of rows. -/
abbrev Mat : Type := List (List ℚ)

/-- Elementwise vector addition (numpy broadcasting is not needed here:
all uses are on same-shaped operands). -/
def vecAdd (a b : List ℚ) : List ℚ := List.zipWith (· + ·) a b

/-- Elementwise matrix addition. -/
def matAdd (A B : Mat) : Mat := List.zipWith vecAdd A B

/-- Scalar multiplication of a matrix. -/
def matScale (c : ℚ) (A : Mat) : Mat := A.map (fun r => r.map (fun x => c * x))

/-- `numpy.mean(stack, axis=0)`: elementwise mean over a stack of
same-shaped matrices.  The empty stack is the degenerate (NaN in numpy)
case; here it yields `[]`. -/
def meanTrials (l : List Mat) : Mat :=
  match l with
  | [] => []
  | t :: ts => matScale (1 / ((t :: ts).length : ℚ)) (ts.foldl matAdd t)

/-- `X[y == c]`: the trials whose positionally aligned label equals `c`. -/
def trialsWithLabel (X : List Mat) (y : List ℤ) (c : ℤ) : List Mat :=
  ((y.zip X).filter (fun p => p.1 == c)).map Prod.snd

/-- Number of columns of a matrix (length of its first row). -/
def cols (A : Mat) : ℕ := (A.headD []).length

/-- Matrix transpose (for rectangular `A`). -/
def transposeM (A : Mat) : Mat :=
  (List.range (cols A)).map (fun j => A.map (fun r => r.getD j 0))

/-- Scale a vector by a scalar. -/
def smulVec (c : ℚ) (v : List ℚ) : List ℚ := v.map (fun x => c * x)

/-- Sum of a list of same-length vectors (empty sum is `[]`). -/
def vecSum : List (List ℚ) → List ℚ
  | [] => []
  | v :: vs => vs.foldl vecAdd v

/-- Row-vector times matrix: `(r · B) j = ∑ i, r i * B i j`. -/
def mulRowMat (r : List ℚ) (B : Mat) : List ℚ :=
  vecSum (List.zipWith smulVec r B)

/-- `numpy.dot` on 2-D arrays: matrix product. -/
def matMul (A B : Mat) : Mat := A.map (fun r => mulRowMat r B)

/-- Python slice `l[0:k]` for an integer bound `k` (negative bounds count
from the end, and an out-of-range negative bound yields the empty list). -/
def pyTake (k : ℤ) (l : List α) : List α :=
  if 0 ≤ k then l.take k.toNat else l.take ((l.length : ℤ) + k).toNat

/-- Loop of `_nextpow2`: `while n < i: n *= 2`. -/
def nextpow2Go (i n : ℕ) (hn : 0 < n) : ℕ :=
  if h : n < i then nextpow2Go i (n * 2) (by omega) else n
termination_by i - n
decreasing_by omega

/-- `_nextpow2(i)`: find next power of 2 (`n = 1; while n < i: n *= 2`). -/
def _nextpow2 (i : ℕ) : ℕ := nextpow2Go i 1 (by omega)

/-- A Python value passed as the `svd` argument of
`ERPCovariances.__init__`: `None`, an `int`, or some non-integer value. -/
inductive PyVal : Type
  | pynone : PyVal
  | pyint (n : ℤ) : PyVal
  | pyfloat (q : ℚ) : PyVal
  | pystr (s : String) : PyVal
deriving DecidableEq

/-- `numpy.unique` on an integer vector: the distinct values in ascending
order.  `insertUniq` inserts one value into an already sorted
duplicate-free list. -/
def insertUniq (x : ℤ) : List ℤ → List ℤ
  | [] => [x]
  | y :: ys => if x < y then x :: y :: ys
               else if x = y then y :: ys
               else y :: insertUniq x ys

/-- `numpy.unique`: sorted distinct values of a list. -/
def npUnique (l : List ℤ) : List ℤ := l.foldr insertUniq []

/-- Modelled from the spec: `estimate_batch(batch, estimator_name)` — the
external `covariances` function of `utils.covariance` (not under `src/`),
"batched form of `estimate_single`, one matrix per trial, preserving
order".  `reg` is the estimator registry resolving a name to a
single-matrix estimation rule. -/
def covariances (reg : String → Mat → Mat) (X : List Mat)
    (estimator : String) : List Mat :=
  X.map (fun x => reg estimator x)

/-- Modelled from the spec: `estimate_augmented_batch(batch, prototype,
estimator_name)` — the external `covariances_EP` function of
`utils.covariance` (not under `src/`): "stacks the prototype/evoked set
with each trial (prototype rows first, trial rows second) and estimates
one matrix per trial". -/
def covariances_EP (reg : String → Mat → Mat) (X : List Mat) (P : Mat)
    (estimator : String) : List Mat :=
  X.map (fun x => reg estimator (P ++ x))

/-! ## `Covariances` -/

/-- The `Covariances` component: its only field is the estimator name. -/
structure Covariances : Type where
  estimator : String
deriving DecidableEq

/-- `Covariances.__init__`. -/
def Covariances.init (estimator : String) : Covariances := ⟨estimator⟩

/-- `Covariances.fit`: "Do nothing. For compatibility purpose." Returns
`self`. -/
def Covariances.fit (s : Covariances) (_X : List Mat)
    (_y : Option (List ℤ)) : Covariances := s

/-- `Covariances.transform`: one covariance matrix per trial via the
selected estimator. -/
def Covariances.transform (reg : String → Mat → Mat) (s : Covariances)
    (X : List Mat) : List Mat :=
  covariances reg X s.estimator

/-! ## `ERPCovariances` -/

/-- The `ERPCovariances` component.  `classes`, `estimator` and `svd` are
set by `__init__`; `P` (the fitted prototype set) only exists after a
successful `fit`, hence `Option`. -/
structure ERPCovariances : Type where
  classes : Option (List ℤ)
  estimator : String
  svd : Option ℤ
  P : Option Mat
deriving DecidableEq

/-- `ERPCovariances.__init__`: stores the fields; then
`if svd is not None: if not isinstance(svd, int): raise TypeError`. -/
def ERPCovariances.init (classes : Option (List ℤ)) (estimator : String)
    (svd : PyVal) : Except String ERPCovariances :=
  match svd with
  | .pynone => .ok ⟨classes, estimator, none, none⟩
  | .pyint n => .ok ⟨classes, estimator, some n, none⟩
  | _ => .error "svd must be None or int"

/-- `ERPCovariances.fit`: chooses the class set (configured subset, else
`numpy.unique(y)`), then for each class averages the matching trials,
optionally reduces the prototype by `P = U[:, 0:svd].T @ P` where `U` is
the left factor of `numpy.linalg.svd(P)` (passed as the external
parameter `svdU`), appends the per-class prototypes to a list and
concatenates them along the row axis into `self.P`. -/
def ERPCovariances.fit (svdU : Mat → Mat) (s : ERPCovariances)
    (X : List Mat) (y : List ℤ) : ERPCovariances :=
  let classList : List ℤ :=
    match s.classes with
    | some cs => cs
    | none => npUnique y
  let Ps : List Mat :=
    classList.foldl (fun acc c =>
      let P0 := meanTrials (trialsWithLabel X y c)
      let P1 :=
        match s.svd with
        | none => P0
        | some k => matMul (pyTake k (transposeM (svdU P0))) P0
      acc ++ [P1]) []
  { s with P := some Ps.flatten }

/-- `ERPCovariances.transform`: `covariances_EP(X, self.P, estimator)`.
Reading `self.P` on an unfitted instance is a Python `AttributeError`,
modelled by `none`. -/
def ERPCovariances.transform (reg : String → Mat → Mat)
    (s : ERPCovariances) (X : List Mat) : Option (List Mat) :=
  s.P.map (fun P => covariances_EP reg X P s.estimator)

/-! ## `XdawnCovariances` -/

/-- The `XdawnCovariances` component, generic over the internal state
type `σ` of the external `Xdawn` spatial filter (from `spatialfilters`,
not under `src/`). -/
structure XdawnCovariances (σ : Type) : Type where
  Xd : σ
  applyfilters : Bool
  estimator : String

/-- `XdawnCovariances.__init__`: builds the inner `Xdawn` component and
stores the flags.  `xdawnInit` is the external `Xdawn` constructor. -/
def XdawnCovariances.init (xdawnInit : ℕ → Option (List ℤ) → σ)
    (nfilter : ℕ) (applyfilters : Bool) (classes : Option (List ℤ))
    (estimator : String) : XdawnCovariances σ :=
  ⟨xdawnInit nfilter classes, applyfilters, estimator⟩

/-- `XdawnCovariances.fit`: `self.Xd.fit(X, y)` mutates the inner filter
state; returns `self`.  `xdFit` is the external `Xdawn.fit`. -/
def XdawnCovariances.fit (xdFit : σ → List Mat → List ℤ → σ)
    (s : XdawnCovariances σ) (X : List Mat) (y : List ℤ) :
    XdawnCovariances σ :=
  { s with Xd := xdFit s.Xd X y }

/-- `XdawnCovariances.transform`: optionally project the batch through
the fitted filter (`xdT`, modelled from the spec as a per-trial
projection applied trial by trial, preserving order), then
`covariances_EP(X, self.Xd.evokeds_, estimator)` (`evk` reads the
`evokeds_` artifact). -/
def XdawnCovariances.transform (xdT : σ → Mat → Mat) (evk : σ → Mat)
    (reg : String → Mat → Mat) (s : XdawnCovariances σ) (X : List Mat) :
    List Mat :=
  let X1 := if s.applyfilters then X.map (xdT s.Xd) else X
  covariances_EP reg X1 (evk s.Xd) s.estimator

/-- `XdawnCovariances.fit_transform`: `self.fit(X, y)` then
`return self.transform(X)`.  State-passing translation: the mutated
state is returned next to the value. -/
def XdawnCovariances.fit_transform (xdFit : σ → List Mat → List ℤ → σ)
    (xdT : σ → Mat → Mat) (evk : σ → Mat) (reg : String → Mat → Mat)
    (s : XdawnCovariances σ) (X : List Mat) (y : List ℤ) :
    XdawnCovariances σ × List Mat :=
  let s1 := XdawnCovariances.fit xdFit s X y
  (s1, XdawnCovariances.transform xdT evk reg s1 X)

/-! ## `CospCovariances` -/

/-- One per-frequency-bin stack of complex matrices, as returned by the
external `cospectrum` primitive; a complex entry is a (real, imaginary)
pair. -/
abbrev CStack : Type := List (List (List (ℚ × ℚ)))

/-- `S.real`: elementwise real part of a complex matrix stack. -/
def realStack (S : CStack) : List Mat :=
  S.map (fun M => M.map (fun r => r.map Prod.fst))

/-- The `CospCovariances` component; all fields are configuration fixed
at construction. -/
structure CospCovariances : Type where
  _window : ℕ
  _overlap : ℚ
  _fmin : Option ℚ
  _fmax : Option ℚ
  _fs : Option ℚ
  _phase_corr : Bool
deriving DecidableEq

/-- `CospCovariances.__init__`: stores `_window = _nextpow2(window)` and
the remaining parameters unchanged. -/
def CospCovariances.init (window : ℕ) (overlap : ℚ)
    (fmin fmax fs : Option ℚ) (phase_correction : Bool) :
    CospCovariances :=
  ⟨_nextpow2 window, overlap, fmin, fmax, fs, phase_correction⟩

/-- `CospCovariances.fit`: returns `self`. -/
def CospCovariances.fit (s : CospCovariances) (_X : List Mat)
    (_y : Option (List ℤ)) : CospCovariances := s

/-- `CospCovariances.transform`: `for i in range(Nt)` call the external
`cospectrum` primitive (parameter `cosp`) on `X[i]` with the stored
window, overlap, fmin, fmax and fs, keep the real part, and collect the
per-trial results in order. -/
def CospCovariances.transform
    (cosp : Mat → ℕ → ℚ → Option ℚ → Option ℚ → Option ℚ → CStack)
    (s : CospCovariances) (X : List Mat) : List (List Mat) :=
  let Nt := X.length
  (List.range Nt).map (fun i =>
    realStack (cosp (X.getD i []) s._window s._overlap s._fmin s._fmax
      s._fs))

/-- `CospCovariances.fit_transform`: `return self.transform(X)`. -/
def CospCovariances.fit_transform
    (cosp : Mat → ℕ → ℚ → Option ℚ → Option ℚ → Option ℚ → CStack)
    (s : CospCovariances) (X : List Mat) (_y : Option (List ℤ)) :
    List (List Mat) :=
  CospCovariances.transform cosp s X

/-! ## State-passing views of the `transform` methods

Each `transform` body in the source contains no attribute assignment, so
its statement-by-statement state-passing translation returns the
component state unchanged next to the computed value. -/

/-- State-passing `Covariances.transform`. -/
def Covariances.transformS (reg : String → Mat → Mat) (s : Covariances)
    (X : List Mat) : Covariances × List Mat :=
  (s, Covariances.transform reg s X)

/-- State-passing `ERPCovariances.transform`. -/
def ERPCovariances.transformS (reg : String → Mat → Mat)
    (s : ERPCovariances) (X : List Mat) :
    ERPCovariances × Option (List Mat) :=
  (s, ERPCovariances.transform reg s X)

/-- State-passing `XdawnCovariances.transform`. -/
def XdawnCovariances.transformS (xdT : σ → Mat → Mat) (evk : σ → Mat)
    (reg : String → Mat → Mat) (s : XdawnCovariances σ) (X : List Mat) :
    XdawnCovariances σ × List Mat :=
  (s, XdawnCovariances.transform xdT evk reg s X)

/-- State-passing `CospCovariances.transform`. -/
def CospCovariances.transformS
    (cosp : Mat → ℕ → ℚ → Option ℚ → Option ℚ → Option ℚ → CStack)
    (s : CospCovariances) (X : List Mat) :
    CospCovariances × List (List Mat) :=
  (s, CospCovariances.transform cosp s X)

/-! ## Lemmas about `_nextpow2` -/

/-- The loop result is at least the target `i`. -/
theorem nextpow2Go_ge (d : ℕ) : ∀ (i n : ℕ) (hn : 0 < n), i - n ≤ d →
    i ≤ nextpow2Go i n hn := by
  induction d with
  | zero =>
    intro i n hn hd
    unfold nextpow2Go
    split
    · exact absurd ‹n < i› (by omega)
    · omega
  | succ d ih =>
    intro i n hn hd
    unfold nextpow2Go
    split
    · exact ih i (n * 2) (by omega) (by omega)
    · omega

/-- The loop result is a power of two when started at a power of two. -/
theorem nextpow2Go_pow (d : ℕ) : ∀ (i n : ℕ) (hn : 0 < n),
    (∃ a, n = 2 ^ a) → i - n ≤ d → ∃ k, nextpow2Go i n hn = 2 ^ k := by
  induction d with
  | zero =>
    intro i n hn ha hd
    unfold nextpow2Go
    split
    · exact absurd ‹n < i› (by omega)
    · exact ha
  | succ d ih =>
    intro i n hn ha hd
    unfold nextpow2Go
    split
    · obtain ⟨a, rfl⟩ := ha
      exact ih i (2 ^ a * 2) (by omega) ⟨a + 1, (pow_succ 2 a).symm⟩
        (by omega)
    · exact ha

/-- Minimality: the loop never overshoots a power of two that already
bounds both the start value and the target. -/
theorem nextpow2Go_le (d : ℕ) : ∀ (i n p : ℕ) (hn : 0 < n),
    (∃ a, n = 2 ^ a) → i - n ≤ d → n ≤ 2 ^ p → i ≤ 2 ^ p →
    nextpow2Go i n hn ≤ 2 ^ p := by
  induction d with
  | zero =>
    intro i n p hn ha hd hnp hip
    unfold nextpow2Go
    split
    · exact absurd ‹n < i› (by omega)
    · exact hnp
  | succ d ih =>
    intro i n p hn ha hd hnp hip
    unfold nextpow2Go
    split
    · obtain ⟨a, rfl⟩ := ha
      have hap : a < p := by
        have h2 : (2 : ℕ) ^ a < 2 ^ p := by omega
        exact (Nat.pow_lt_pow_iff_right (by norm_num)).mp h2
      have h2p : 2 ^ a * 2 ≤ 2 ^ p := by
        have : (2 : ℕ) ^ (a + 1) ≤ 2 ^ p :=
          Nat.pow_le_pow_right (by norm_num) (by omega)
        calc 2 ^ a * 2 = 2 ^ (a + 1) := (pow_succ 2 a).symm
          _ ≤ 2 ^ p := this
      exact ih i (2 ^ a * 2) p (by omega) ⟨a + 1, (pow_succ 2 a).symm⟩
        (by omega) h2p hip
    · exact hnp

/-- `_nextpow2 i` is at least `i`. -/
theorem _nextpow2_ge (i : ℕ) : i ≤ _nextpow2 i :=
  nextpow2Go_ge (i - 1) i 1 (by omega) (by omega)

/-- `_nextpow2 i` is a power of two. -/
theorem _nextpow2_pow (i : ℕ) : ∃ k, _nextpow2 i = 2 ^ k :=
  nextpow2Go_pow (i - 1) i 1 (by omega) ⟨0, rfl⟩ (by omega)

/-- `_nextpow2 i` is the least power of two that is at least `i`. -/
theorem _nextpow2_le_pow (i p : ℕ) (h : i ≤ 2 ^ p) :
    _nextpow2 i ≤ 2 ^ p :=
  nextpow2Go_le (i - 1) i 1 p (by omega) ⟨0, rfl⟩ (by omega)
    Nat.one_le_two_pow h

/-- `_nextpow2 100 = 128`. -/
theorem _nextpow2_100 : _nextpow2 100 = 128 := by
  have h1 := _nextpow2_ge 100
  have h2 : _nextpow2 100 ≤ 128 := _nextpow2_le_pow 100 7 (by norm_num)
  obtain ⟨k, hk⟩ := _nextpow2_pow 100
  have h7 : 7 ≤ k := by
    by_contra hcon
    push_neg at hcon
    have : (2 : ℕ) ^ k ≤ 2 ^ 6 :=
      Nat.pow_le_pow_right (by norm_num) (by omega)
    have h64 : (2 : ℕ) ^ 6 = 64 := by norm_num
    omega
  have h128 : (2 : ℕ) ^ 7 ≤ 2 ^ k :=
    Nat.pow_le_pow_right (by norm_num) h7
  have h128v : (2 : ℕ) ^ 7 = 128 := by norm_num
  omega

/-- `_nextpow2 128 = 128`. -/
theorem _nextpow2_128 : _nextpow2 128 = 128 := by
  have h1 := _nextpow2_ge 128
  have h2 : _nextpow2 128 ≤ 128 := by
    have := _nextpow2_le_pow 128 7 (by norm_num)
    omega
  omega

/-! ## Claim theorems: configuration and statelessness -/

/-- C1: `ERPCovariances` construction succeeds exactly when the `svd`
argument is `None` or an integer (storing it), and otherwise raises the
configuration error at construction time itself. -/
theorem claim_C1_erp_init_svd_type_check (cls : Option (List ℤ))
    (est : String) (v : PyVal) :
    ((∃ cfg, ERPCovariances.init cls est v = Except.ok cfg) ↔
      v = PyVal.pynone ∨ ∃ n, v = PyVal.pyint n) ∧
    ERPCovariances.init cls est PyVal.pynone =
      Except.ok ⟨cls, est, none, none⟩ ∧
    (∀ n : ℤ, ERPCovariances.init cls est (PyVal.pyint n) =
      Except.ok ⟨cls, est, some n, none⟩) := by
  refine ⟨?_, rfl, fun n => rfl⟩
  cases v with
  | pynone => simp [ERPCovariances.init]
  | pyint n => simp [ERPCovariances.init]
  | pyfloat q => simp [ERPCovariances.init]
  | pystr s => simp [ERPCovariances.init]

/-- C2: `CospCovariances` stores, at construction time, an effective
window equal to the next power of two at or above the requested value:
the stored window is `_nextpow2 w`, which is a power of two, is at least
`w`, and is below every power of two at or above `w`; in particular the
requested window 100 yields 128 and 128 stays 128. -/
theorem claim_C2_cosp_window_normalization (w : ℕ) (o : ℚ)
    (f1 f2 fs : Option ℚ) (pc : Bool) :
    (CospCovariances.init w o f1 f2 fs pc)._window = _nextpow2 w ∧
    (∃ k, (CospCovariances.init w o f1 f2 fs pc)._window = 2 ^ k) ∧
    w ≤ (CospCovariances.init w o f1 f2 fs pc)._window ∧
    (∀ m, w ≤ 2 ^ m →
      (CospCovariances.init w o f1 f2 fs pc)._window ≤ 2 ^ m) ∧
    (CospCovariances.init 100 o f1 f2 fs pc)._window = 128 ∧
    (CospCovariances.init 128 o f1 f2 fs pc)._window = 128 :=
  ⟨rfl, _nextpow2_pow w, _nextpow2_ge w,
   fun m hm => _nextpow2_le_pow w m hm, _nextpow2_100, _nextpow2_128⟩

/-- Witness for C2 at the concrete requested window 100, discharging the
minimality hypothesis at `m = 7`. -/
theorem claim_C2_witness :
    (CospCovariances.init 100 1 none none none false)._window = 128 ∧
    (CospCovariances.init 100 1 none none none false)._window ≤ 2 ^ 7 :=
  ⟨(claim_C2_cosp_window_normalization 100 1 none none none
      false).2.2.2.2.1,
   (claim_C2_cosp_window_normalization 100 1 none none none
      false).2.2.2.1 7 (by norm_num)⟩

/-- C7: `Covariances.fit` and `CospCovariances.fit` return the component
unchanged for every batch and labels argument, and
`CospCovariances.fit_transform` is exactly `transform` (fit contributes
no state). -/
theorem claim_C7_stateless_fit :
    (∀ (s : Covariances) (X : List Mat) (y : Option (List ℤ)),
      Covariances.fit s X y = s) ∧
    (∀ (s : CospCovariances) (X : List Mat) (y : Option (List ℤ)),
      CospCovariances.fit s X y = s) ∧
    (∀ (cosp : Mat → ℕ → ℚ → Option ℚ → Option ℚ → Option ℚ → CStack)
      (s : CospCovariances) (X : List Mat) (y : Option (List ℤ)),
      CospCovariances.fit_transform cosp s X y =
        CospCovariances.transform cosp s X) :=
  ⟨fun _ _ _ => rfl, fun _ _ _ => rfl, fun _ _ _ _ => rfl⟩

/-- C8: `XdawnCovariances.fit_transform` is exactly `fit` followed by
`transform` on the same batch, both for the resulting state and the
returned matrices. -/
theorem claim_C8_xdawn_fit_transform_composition {σ : Type}
    (xdFit : σ → List Mat → List ℤ → σ) (xdT : σ → Mat → Mat)
    (evk : σ → Mat) (reg : String → Mat → Mat)
    (s : XdawnCovariances σ) (X : List Mat) (y : List ℤ) :
    XdawnCovariances.fit_transform xdFit xdT evk reg s X y =
      (XdawnCovariances.fit xdFit s X y,
       XdawnCovariances.transform xdT evk reg
         (XdawnCovariances.fit xdFit s X y) X) := rfl

/-- C9: every `transform` leaves its component state unchanged (no
fitted artifact or other field is written), and calling it a second time
on the state left by the first call returns the same value. -/
theorem claim_C9_transform_pure_deterministic {σ : Type}
    (reg : String → Mat → Mat) (xdT : σ → Mat → Mat) (evk : σ → Mat)
    (cosp : Mat → ℕ → ℚ → Option ℚ → Option ℚ → Option ℚ → CStack)
    (sc : Covariances) (se : ERPCovariances) (sx : XdawnCovariances σ)
    (sp : CospCovariances) (X : List Mat) :
    (Covariances.transformS reg sc X).1 = sc ∧
    (ERPCovariances.transformS reg se X).1 = se ∧
    (XdawnCovariances.transformS xdT evk reg sx X).1 = sx ∧
    (CospCovariances.transformS cosp sp X).1 = sp ∧
    (Covariances.transformS reg
        (Covariances.transformS reg sc X).1 X).2 =
      (Covariances.transformS reg sc X).2 ∧
    (ERPCovariances.transformS reg
        (ERPCovariances.transformS reg se X).1 X).2 =
      (ERPCovariances.transformS reg se X).2 ∧
    (XdawnCovariances.transformS xdT evk reg
        (XdawnCovariances.transformS xdT evk reg sx X).1 X).2 =
      (XdawnCovariances.transformS xdT evk reg sx X).2 ∧
    (CospCovariances.transformS cosp
        (CospCovariances.transformS cosp sp X).1 X).2 =
      (CospCovariances.transformS cosp sp X).2 :=
  ⟨rfl, rfl, rfl, rfl, rfl, rfl, rfl, rfl⟩

/-! ## List helper lemmas -/

/-- Folding `append one element` over a list from an accumulator is the
accumulator followed by the mapped list (the Python pattern
`acc = []; for c in l: acc.append(g(c))`). -/
theorem foldl_append_map {α β : Type} (g : α → β) :
    ∀ (l : List α) (acc : List β),
      l.foldl (fun a c => a ++ [g c]) acc = acc ++ l.map g := by
  intro l
  induction l with
  | nil => intro acc; simp
  | cons c cs ih =>
    intro acc
    simp only [List.foldl_cons, List.map_cons]
    rw [ih]
    simp

/-- Indexing a list over `range` of its length is mapping over it (the
Python pattern `for i in range(len(X)): out.append(g(X[i]))`). -/
theorem range_map_getD {β : Type} (g : Mat → β) :
    ∀ X : List Mat,
      (List.range X.length).map (fun i => g (X.getD i [])) = X.map g := by
  intro X
  induction X with
  | nil => rfl
  | cons x xs ih =>
    rw [List.length_cons, List.range_succ_eq_map, List.map_cons,
      List.map_map, List.map_cons]
    congr 1

/-- `CospCovariances.transform` as a per-trial map with the stored
parameters. -/
theorem cosp_transform_eq_map
    (cosp : Mat → ℕ → ℚ → Option ℚ → Option ℚ → Option ℚ → CStack)
    (s : CospCovariances) (X : List Mat) :
    CospCovariances.transform cosp s X =
      X.map (fun x =>
        realStack (cosp x s._window s._overlap s._fmin s._fmax s._fs)) := by
  simp only [CospCovariances.transform]
  exact range_map_getD
    (fun x => realStack (cosp x s._window s._overlap s._fmin s._fmax
      s._fs)) X

/-! ## Spec-side descriptions of the ERP prototype construction -/

/-- The spec's description of the per-class prototype: the mean over all
trials whose label equals the class and, when a reduction rank is
configured, the projection of that mean onto its top-`k` left singular
vectors (`U[:, 0:k].T @ P`). -/
def protoSpec (svdU : Mat → Mat) (svd : Option ℤ) (X : List Mat)
    (y : List ℤ) (c : ℤ) : Mat :=
  let P0 := meanTrials (trialsWithLabel X y c)
  match svd with
  | none => P0
  | some k => matMul (pyTake k (transposeM (svdU P0))) P0

/-- The spec's chosen class-set order: the configured subset if given,
otherwise the distinct label values. -/
def chosenClasses (classes : Option (List ℤ)) (y : List ℤ) : List ℤ :=
  match classes with
  | some cs => cs
  | none => npUnique y

/-- C3: `ERPCovariances.fit` builds exactly the prototype set described
by the spec — for each class in the chosen class-set order, the mean of
the matching trials, reduced through the top-`k` left singular vectors
when a rank is configured, concatenated along the row axis in class
order — and sets no other field. -/
theorem claim_C3_erp_fit_prototype_set (svdU : Mat → Mat)
    (s : ERPCovariances) (X : List Mat) (y : List ℤ) :
    (ERPCovariances.fit svdU s X y).P =
      some (((chosenClasses s.classes y).map
        (protoSpec svdU s.svd X y)).flatten) ∧
    (ERPCovariances.fit svdU s X y).classes = s.classes ∧
    (ERPCovariances.fit svdU s X y).estimator = s.estimator ∧
    (ERPCovariances.fit svdU s X y).svd = s.svd := by
  refine ⟨?_, rfl, rfl, rfl⟩
  show some ((List.foldl
      (fun acc c => acc ++ [protoSpec svdU s.svd X y c]) []
      (chosenClasses s.classes y)).flatten) = _
  rw [foldl_append_map (protoSpec svdU s.svd X y)
    (chosenClasses s.classes y) []]
  rfl

/-! ## `numpy.unique` ordering lemmas -/

/-- Membership in `insertUniq`. -/
theorem insertUniq_mem (x a : ℤ) :
    ∀ l : List ℤ, a ∈ insertUniq x l ↔ a = x ∨ a ∈ l := by
  intro l
  induction l with
  | nil => simp [insertUniq]
  | cons b bs ih =>
    by_cases h1 : x < b
    · simp only [insertUniq, if_pos h1, List.mem_cons]
    · by_cases h2 : x = b
      · simp only [insertUniq, if_neg h1, if_pos h2, List.mem_cons]
        subst h2
        tauto
      · simp only [insertUniq, if_neg h1, if_neg h2, List.mem_cons, ih]
        tauto

/-- `insertUniq` preserves strict ascending sortedness. -/
theorem insertUniq_pairwise (x : ℤ) :
    ∀ l : List ℤ, List.Pairwise (· < ·) l →
      List.Pairwise (· < ·) (insertUniq x l) := by
  intro l
  induction l with
  | nil => intro _; simp [insertUniq]
  | cons b bs ih =>
    intro hp
    rw [List.pairwise_cons] at hp
    obtain ⟨hb, hbs⟩ := hp
    by_cases h1 : x < b
    · simp only [insertUniq, if_pos h1]
      rw [List.pairwise_cons]
      refine ⟨?_, ?_⟩
      · intro a ha
        rcases List.mem_cons.mp ha with rfl | ha
        · exact h1
        · exact lt_trans h1 (hb a ha)
      · rw [List.pairwise_cons]
        exact ⟨hb, hbs⟩
    · by_cases h2 : x = b
      · simp only [insertUniq, if_neg h1, if_pos h2]
        rw [List.pairwise_cons]
        exact ⟨hb, hbs⟩
      · simp only [insertUniq, if_neg h1, if_neg h2]
        rw [List.pairwise_cons]
        refine ⟨?_, ih hbs⟩
        intro a ha
        rcases (insertUniq_mem x a bs).mp ha with rfl | ha
        · omega
        · exact hb a ha

/-- `npUnique` is strictly ascending. -/
theorem npUnique_pairwise (l : List ℤ) :
    List.Pairwise (· < ·) (npUnique l) := by
  induction l with
  | nil => simp [npUnique]
  | cons x xs ih => exact insertUniq_pairwise x _ ih

/-- `npUnique` has the same members as its input. -/
theorem npUnique_mem (a : ℤ) (l : List ℤ) :
    a ∈ npUnique l ↔ a ∈ l := by
  induction l with
  | nil => simp [npUnique]
  | cons x xs ih =>
    show a ∈ insertUniq x (npUnique xs) ↔ _
    rw [insertUniq_mem]
    simp [ih]

/-- C10: with `classes = None`, `fit` takes the class set from
`numpy.unique(y)`, so the per-class prototype blocks are laid out in
strictly ascending order of the distinct label values (which are exactly
the values occurring in `y`), not in order of first appearance. -/
theorem claim_C10_class_order_sorted (svdU : Mat → Mat) (est : String)
    (svd : Option ℤ) (P0 : Option Mat) (X : List Mat) (y : List ℤ) :
    (ERPCovariances.fit svdU ⟨none, est, svd, P0⟩ X y).P =
      some (((npUnique y).map (protoSpec svdU svd X y)).flatten) ∧
    List.Pairwise (· < ·) (npUnique y) ∧
    (∀ a : ℤ, a ∈ npUnique y ↔ a ∈ y) := by
  refine ⟨?_, npUnique_pairwise y, fun a => npUnique_mem a y⟩
  show some ((List.foldl
      (fun acc c => acc ++ [protoSpec svdU svd X y c]) []
      (npUnique y)).flatten) = _
  rw [foldl_append_map (protoSpec svdU svd X y) (npUnique y) []]
  rfl

/-- C5: `CospCovariances.transform` invokes the external cospectrum
primitive once per trial with exactly the window, overlap, fmin, fmax
and fs stored at construction (the normalized window included), keeps
the real part of each per-frequency-bin matrix, and stacks the per-trial
results in order. -/
theorem claim_C5_cosp_transform_per_trial
    (cosp : Mat → ℕ → ℚ → Option ℚ → Option ℚ → Option ℚ → CStack)
    (w : ℕ) (o : ℚ) (f1 f2 fs : Option ℚ) (pc : Bool) (X : List Mat) :
    CospCovariances.transform cosp
        (CospCovariances.init w o f1 f2 fs pc) X =
      X.map (fun x => realStack (cosp x (_nextpow2 w) o f1 f2 fs)) := by
  rw [cosp_transform_eq_map]
  rfl

/-- C6: for all four transforms, the result at output index `i` is
computed from the input trial at index `i`. -/
theorem claim_C6_order_preservation {σ : Type}
    (reg : String → Mat → Mat) (xdT : σ → Mat → Mat) (evk : σ → Mat)
    (cosp : Mat → ℕ → ℚ → Option ℚ → Option ℚ → Option ℚ → CStack)
    (est : String) (cls0 : Option (List ℤ)) (svd : Option ℤ) (P : Mat)
    (sx : XdawnCovariances σ) (sp : CospCovariances) (X : List Mat)
    (i : ℕ) :
    (Covariances.transform reg ⟨est⟩ X)[i]? =
      (X[i]?).map (fun x => reg est x) ∧
    (ERPCovariances.transform reg ⟨cls0, est, svd, some P⟩ X =
      some (covariances_EP reg X P est) ∧
      (covariances_EP reg X P est)[i]? =
        (X[i]?).map (fun x => reg est (P ++ x))) ∧
    (XdawnCovariances.transform xdT evk reg sx X)[i]? =
      (X[i]?).map (fun x => reg sx.estimator (evk sx.Xd ++
        (if sx.applyfilters then xdT sx.Xd x else x))) ∧
    (CospCovariances.transform cosp sp X)[i]? =
      (X[i]?).map (fun x =>
        realStack (cosp x sp._window sp._overlap sp._fmin sp._fmax
          sp._fs)) := by
  refine ⟨?_, ⟨rfl, ?_⟩, ?_, ?_⟩
  · simp [Covariances.transform, covariances, List.getElem?_map]
  · simp [covariances_EP, List.getElem?_map]
  · cases hb : sx.applyfilters with
    | false =>
      simp [XdawnCovariances.transform, covariances_EP, hb,
        List.getElem?_map]
    | true =>
      simp [XdawnCovariances.transform, covariances_EP, hb,
        List.getElem?_map, List.map_map, Function.comp_def]
  · rw [cosp_transform_eq_map]
    simp [List.getElem?_map]

/-! ## Shape reasoning for the augmented-covariance output (C4) -/

/-- `A` is a matrix with `r` rows, each of length `c`. -/
def IsShape (A : Mat) (r c : ℕ) : Prop :=
  A.length = r ∧ ∀ row ∈ A, row.length = c

instance (A : Mat) (r c : ℕ) : Decidable (IsShape A r c) := by
  unfold IsShape
  infer_instance

/-- Pointwise property of `zipWith` results. -/
theorem zipWith_forall {α β γ : Type} (f : α → β → γ) (P : γ → Prop) :
    ∀ (l1 : List α) (l2 : List β),
      (∀ a ∈ l1, ∀ b ∈ l2, P (f a b)) →
      ∀ x ∈ List.zipWith f l1 l2, P x := by
  intro l1
  induction l1 with
  | nil => intro l2 _ x hx; simp at hx
  | cons a as ih =>
    intro l2 h x hx
    cases l2 with
    | nil => simp at hx
    | cons b bs =>
      rw [List.zipWith_cons_cons] at hx
      rcases List.mem_cons.mp hx with rfl | hx
      · exact h a (by simp) b (by simp)
      · exact ih bs (fun c hc d hd => h c (by simp [hc]) d (by simp [hd]))
          x hx

/-- `vecAdd` preserves a common length. -/
theorem vecAdd_length (a b : List ℚ) (n : ℕ) (ha : a.length = n)
    (hb : b.length = n) : (vecAdd a b).length = n := by
  simp [vecAdd, ha, hb]

/-- `matAdd` preserves a common shape. -/
theorem matAdd_shape (A B : Mat) (r c : ℕ) (hA : IsShape A r c)
    (hB : IsShape B r c) : IsShape (matAdd A B) r c := by
  obtain ⟨hA1, hA2⟩ := hA
  obtain ⟨hB1, hB2⟩ := hB
  refine ⟨by simp [matAdd, hA1, hB1], ?_⟩
  exact zipWith_forall vecAdd (fun v => v.length = c) A B
    (fun a ha b hb => vecAdd_length a b c (hA2 a ha) (hB2 b hb))

/-- `matScale` preserves shape. -/
theorem matScale_shape (q : ℚ) (A : Mat) (r c : ℕ) (h : IsShape A r c) :
    IsShape (matScale q A) r c := by
  obtain ⟨h1, h2⟩ := h
  refine ⟨by simp [matScale, h1], ?_⟩
  intro row hrow
  simp only [matScale, List.mem_map] at hrow
  obtain ⟨a, ha, rfl⟩ := hrow
  simp [h2 a ha]

/-- Folding `matAdd` over same-shaped matrices preserves the shape. -/
theorem foldl_matAdd_shape (r c : ℕ) :
    ∀ (ts : List Mat) (t : Mat), IsShape t r c →
      (∀ u ∈ ts, IsShape u r c) → IsShape (ts.foldl matAdd t) r c := by
  intro ts
  induction ts with
  | nil => intro t ht _; exact ht
  | cons u us ih =>
    intro t ht hall
    simp only [List.foldl_cons]
    exact ih (matAdd t u) (matAdd_shape t u r c ht (hall u (by simp)))
      (fun v hv => hall v (by simp [hv]))

/-- The mean of a nonempty stack of same-shaped matrices has that
shape. -/
theorem meanTrials_shape (l : List Mat) (r c : ℕ) (hne : l ≠ [])
    (hall : ∀ t ∈ l, IsShape t r c) : IsShape (meanTrials l) r c := by
  cases l with
  | nil => exact absurd rfl hne
  | cons t ts =>
    show IsShape (matScale _ (ts.foldl matAdd t)) r c
    exact matScale_shape _ _ r c
      (foldl_matAdd_shape r c ts t (hall t (by simp))
        (fun u hu => hall u (by simp [hu])))

/-- Selected trials are among the batch trials. -/
theorem trialsWithLabel_sub (X : List Mat) (y : List ℤ) (c : ℤ) :
    ∀ t ∈ trialsWithLabel X y c, t ∈ X := by
  intro t ht
  simp only [trialsWithLabel, List.mem_map, List.mem_filter] at ht
  obtain ⟨⟨lab, u⟩, ⟨hmem, _⟩, rfl⟩ := ht
  exact (List.of_mem_zip hmem).2

/-- A nonempty matrix of uniform row length `c` has `cols` equal to
`c`. -/
theorem cols_of_shape (A : Mat) (r c : ℕ) (h : IsShape A r c)
    (hr : 0 < r) : cols A = c := by
  obtain ⟨h1, h2⟩ := h
  cases A with
  | nil => simp at h1; omega
  | cons a as => exact h2 a (by simp)

/-- Transposing an `r × c` matrix (with at least one row) gives a
`c × r` matrix. -/
theorem transposeM_shape (A : Mat) (r c : ℕ) (h : IsShape A r c)
    (hr : 0 < r) : IsShape (transposeM A) c r := by
  have hc := cols_of_shape A r c h hr
  obtain ⟨h1, h2⟩ := h
  refine ⟨by simp [transposeM, hc], ?_⟩
  intro row hrow
  simp only [transposeM, List.mem_map] at hrow
  obtain ⟨j, hj, rfl⟩ := hrow
  simp [h1]

/-- Taking the first `k ≤ r` rows of an `r × c` matrix gives a `k × c`
matrix. -/
theorem take_shape (A : Mat) (r c k : ℕ) (h : IsShape A r c)
    (hk : k ≤ r) : IsShape (A.take k) k c := by
  obtain ⟨h1, h2⟩ := h
  refine ⟨by simp [List.length_take, h1]; omega, ?_⟩
  intro row hrow
  exact h2 row (List.take_subset k A hrow)

/-- Folding `vecAdd` over same-length vectors preserves the length. -/
theorem foldl_vecAdd_length (n : ℕ) :
    ∀ (vs : List (List ℚ)) (v : List ℚ), v.length = n →
      (∀ u ∈ vs, u.length = n) → (vs.foldl vecAdd v).length = n := by
  intro vs
  induction vs with
  | nil => intro v hv _; exact hv
  | cons u us ih =>
    intro v hv hall
    simp only [List.foldl_cons]
    exact ih (vecAdd v u) (vecAdd_length v u n hv (hall u (by simp)))
      (fun w hw => hall w (by simp [hw]))

/-- The sum of a nonempty list of length-`n` vectors has length `n`. -/
theorem vecSum_length (n : ℕ) (vs : List (List ℚ)) (hne : vs ≠ [])
    (hall : ∀ v ∈ vs, v.length = n) : (vecSum vs).length = n := by
  cases vs with
  | nil => exact absurd rfl hne
  | cons v vs =>
    show (vs.foldl vecAdd v).length = n
    exact foldl_vecAdd_length n vs v (hall v (by simp))
      (fun u hu => hall u (by simp [hu]))

/-- A length-`m` row times an `m × n` matrix (with `m > 0`) is a
length-`n` row. -/
theorem mulRowMat_length (row : List ℚ) (B : Mat) (m n : ℕ)
    (hrow : row.length = m) (hB : IsShape B m n) (hm : 0 < m) :
    (mulRowMat row B).length = n := by
  obtain ⟨hB1, hB2⟩ := hB
  have hlen : (List.zipWith smulVec row B).length = m := by
    simp [List.length_zipWith, hrow, hB1]
  have hne : List.zipWith smulVec row B ≠ [] := by
    intro hcon
    rw [hcon] at hlen
    simp at hlen
    omega
  apply vecSum_length n _ hne
  exact zipWith_forall smulVec (fun v => v.length = n) row B
    (fun a _ b hb => by simp [smulVec, hB2 b hb])

/-- Matrix-product shape: `(k × m) · (m × n) = (k × n)` for `m > 0`. -/
theorem matMul_shape (A B : Mat) (k m n : ℕ) (hA : IsShape A k m)
    (hB : IsShape B m n) (hm : 0 < m) : IsShape (matMul A B) k n := by
  obtain ⟨hA1, hA2⟩ := hA
  refine ⟨by simp [matMul, hA1], ?_⟩
  intro row hrow
  simp only [matMul, List.mem_map] at hrow
  obtain ⟨a, ha, rfl⟩ := hrow
  exact mulRowMat_length a B m n (hA2 a ha) hB hm

/-- Flattening a list of `R × c` matrices gives a
`(count · R) × c` matrix. -/
theorem flatten_shape (c R : ℕ) :
    ∀ l : List Mat, (∀ M ∈ l, IsShape M R c) →
      IsShape l.flatten (l.length * R) c := by
  intro l
  induction l with
  | nil => simp [IsShape]
  | cons M Ms ih =>
    intro hall
    have hM := hall M (by simp)
    have hMs := ih (fun N hN => hall N (by simp [hN]))
    constructor
    · rw [List.flatten_cons, List.length_append, hM.1, hMs.1,
        List.length_cons]
      ring
    · intro row hrow
      rw [List.flatten_cons, List.mem_append] at hrow
      rcases hrow with h | h
      · exact hM.2 row h
      · exact hMs.2 row h

/-- Row count of one per-class prototype: the channel count if no
reduction is configured, the reduction rank otherwise. -/
def erpRows (svd : Option ℤ) (C : ℕ) : ℕ :=
  match svd with
  | none => C
  | some r => r.toNat

/-- Shape of a single per-class prototype. -/
theorem protoSpec_shape (svdU : Mat → Mat) (svd : Option ℤ)
    (X : List Mat) (y : List ℤ) (c : ℤ) (C T : ℕ) (hC : 0 < C)
    (hX : ∀ t ∈ X, IsShape t C T)
    (hne : trialsWithLabel X y c ≠ [])
    (hU : IsShape (svdU (meanTrials (trialsWithLabel X y c))) C C)
    (hsvd : ∀ r, svd = some r → 0 ≤ r ∧ r.toNat ≤ C) :
    IsShape (protoSpec svdU svd X y c) (erpRows svd C) T := by
  have hmean : IsShape (meanTrials (trialsWithLabel X y c)) C T :=
    meanTrials_shape _ C T hne
      (fun t ht => hX t (trialsWithLabel_sub X y c t ht))
  cases svd with
  | none => exact hmean
  | some r =>
    obtain ⟨hr0, hrC⟩ := hsvd r rfl
    have htr : IsShape
        (transposeM (svdU (meanTrials (trialsWithLabel X y c)))) C C :=
      transposeM_shape _ C C hU hC
    have htk : IsShape
        ((transposeM (svdU (meanTrials (trialsWithLabel X y c)))).take
          r.toNat) r.toNat C :=
      take_shape _ C C r.toNat htr hrC
    have hpt : pyTake r
        (transposeM (svdU (meanTrials (trialsWithLabel X y c)))) =
        (transposeM (svdU (meanTrials (trialsWithLabel X y c)))).take
          r.toNat := by
      simp only [pyTake]
      rw [if_pos hr0]
    show IsShape (matMul (pyTake r
        (transposeM (svdU (meanTrials (trialsWithLabel X y c)))))
        (meanTrials (trialsWithLabel X y c))) r.toNat T
    rw [hpt]
    exact matMul_shape _ _ r.toNat C T htk hmean hC

/-- The fitted prototype set, in map/flatten form. -/
theorem erpFit_P_eq (svdU : Mat → Mat) (s : ERPCovariances)
    (X : List Mat) (y : List ℤ) :
    (ERPCovariances.fit svdU s X y).P =
      some (((chosenClasses s.classes y).map
        (protoSpec svdU s.svd X y)).flatten) := by
  show some ((List.foldl
      (fun acc c => acc ++ [protoSpec svdU s.svd X y c]) []
      (chosenClasses s.classes y)).flatten) = _
  rw [foldl_append_map (protoSpec svdU s.svd X y)
    (chosenClasses s.classes y) []]
  rfl

/-- C4: after fitting on a batch of `C`-channel trials with `k` classes,
`transform` on a batch of `N` trials returns `N` square matrices of side
`C·k + C` when no reduction is configured and `r·k + C` when reduction
rank `r` is configured (`erpRows s.svd C` is `C` resp. `r`), assuming
every chosen class has a matching trial, the external svd left factor is
a `C × C` matrix, `r ≤ C`, and the estimator returns a square matrix of
the side of its input. -/
theorem claim_C4_erp_transform_shape (reg : String → Mat → Mat)
    (svdU : Mat → Mat) (s : ERPCovariances) (X Xt : List Mat)
    (y : List ℤ) (C T Tt : ℕ)
    (hC : 0 < C)
    (hX : ∀ t ∈ X, IsShape t C T)
    (hXt : ∀ t ∈ Xt, IsShape t C Tt)
    (hne : ∀ c ∈ chosenClasses s.classes y, trialsWithLabel X y c ≠ [])
    (hU : ∀ c ∈ chosenClasses s.classes y,
      IsShape (svdU (meanTrials (trialsWithLabel X y c))) C C)
    (hsvd : ∀ r, s.svd = some r → 0 ≤ r ∧ r.toNat ≤ C)
    (hreg : ∀ A : Mat, IsShape (reg s.estimator A) A.length A.length) :
    ∃ out,
      ERPCovariances.transform reg (ERPCovariances.fit svdU s X y) Xt =
        some out ∧
      out.length = Xt.length ∧
      ∀ M ∈ out,
        IsShape M
          (erpRows s.svd C * (chosenClasses s.classes y).length + C)
          (erpRows s.svd C * (chosenClasses s.classes y).length + C) := by
  have hP : IsShape
      (((chosenClasses s.classes y).map
        (protoSpec svdU s.svd X y)).flatten)
      ((chosenClasses s.classes y).length * erpRows s.svd C) T := by
    have := flatten_shape T (erpRows s.svd C)
      ((chosenClasses s.classes y).map (protoSpec svdU s.svd X y))
      (fun M hM => by
        obtain ⟨c, hc, rfl⟩ := List.mem_map.mp hM
        exact protoSpec_shape svdU s.svd X y c C T hC hX (hne c hc)
          (hU c hc) hsvd)
    rwa [List.length_map] at this
  refine ⟨covariances_EP reg Xt
      (((chosenClasses s.classes y).map
        (protoSpec svdU s.svd X y)).flatten) s.estimator, ?_, ?_, ?_⟩
  · simp only [ERPCovariances.transform, erpFit_P_eq]
    rfl
  · simp [covariances_EP]
  · intro M hM
    simp only [covariances_EP, List.mem_map] at hM
    obtain ⟨x, hx, rfl⟩ := hM
    have h := hreg
      ((((chosenClasses s.classes y).map
        (protoSpec svdU s.svd X y)).flatten) ++ x)
    rw [List.length_append, hP.1, (hXt x hx).1, Nat.mul_comm] at h
    exact h

/-- Witness for C4: two one-channel, one-sample trials in two classes,
reduction rank 1, a constant unit svd factor and the zero estimator;
the ten hypotheses are discharged at these concrete values and the
output is one 3 × 3 matrix (side = 1·2 + 1). -/
theorem claim_C4_witness :
    ∃ out,
      ERPCovariances.transform
        (fun _ A => A.map (fun _ => A.map (fun _ => (0 : ℚ))))
        (ERPCovariances.fit (fun _ => [[1]])
          ⟨none, "scm", some 1, none⟩ [[[1]], [[3]]] [0, 1])
        [[[2]]] = some out ∧
      out.length = 1 ∧
      ∀ M ∈ out, IsShape M 3 3 := by
  have h := claim_C4_erp_transform_shape
    (fun _ A => A.map (fun _ => A.map (fun _ => (0 : ℚ))))
    (fun _ => [[1]])
    ⟨none, "scm", some 1, none⟩
    [[[1]], [[3]]] [[[2]]] [0, 1] 1 1 1
    (by decide)
    (by decide)
    (by decide)
    (by decide)
    (by decide)
    (by intro r hr; cases hr; decide)
    (by
      intro A
      refine ⟨by simp, ?_⟩
      intro row hrow
      simp only [List.mem_map] at hrow
      obtain ⟨a, _, rfl⟩ := hrow
      simp)
  exact h
